import Mathlib

/-!
Verification of the Swiper weighted-consensus ticket solver.

This file gives a shallow embedding, in Lean 4, of the solver sources:

* `solver/knapsack.py` — the bounded 0/1 knapsack oracle `_knapsack_impl`,
  its backend dispatcher `knapsack`, and the linear-relaxation bound
  `knapsack_upper_bound`;
* `solver/__init__.py` — the two-phase Weight Restriction solver `wr_solve`
  with its scale search, boundary refinement and validator
  `wr_solution_valid`;
* `solver/wr.py`, `solver/wq.py` — the instance records;
* `main.py` — the driver's threshold-ordering checks.

Python exceptions (assertion failures, `ZeroDivisionError`, `max` of an
empty sequence) are modeled by `Option`-valued functions returning `none`.
Loops are modeled with an explicit fuel parameter; a run that would not
terminate in the source exhausts fuel and yields `none`, and all
correctness theorems are stated for arbitrary fuel, conditioned on a
`some` result.  Exact rational arithmetic (`fractions.Fraction`) is
modeled by `Rat`.
-/

unseal Rat.add Rat.mul Rat.sub Rat.inv

set_option maxRecDepth 1000000

namespace Swiper

/-- Largest signed 64-bit integer, `np.iinfo(np.int64).max` in the source.
The dynamic program uses this value as its infinity sentinel. -/
def MAX_INT_64 : Int := 2 ^ 63 - 1

/-- Total weight of a list of (weight, profit) items. -/
def weightL (l : List (Int × Int)) : Int := (l.map Prod.fst).sum

/-- Total profit of a list of (weight, profit) items. -/
def profitL (l : List (Int × Int)) : Int := (l.map Prod.snd).sum

/-- Initial dp row of `_knapsack_impl`: minimum weight 0 for profit level 0,
sentinel `MAX_INT_64` for every positive profit level (source line 73). -/
def dpInit : Nat → Int := fun q => if q = 0 then 0 else MAX_INT_64

/-- One item iteration of the dp update (source lines 76–84).  The source
updates the row in place from high `q` to low `q`; since the inner update at
`q` only reads indices `q` and `q - p` with `p ≥ 1`, every read during the
sweep sees the value from before this item, so the sweep equals this
pointwise function of the previous row. -/
def dpStep (dp : Nat → Int) (it : Int × Int) : Nat → Int := fun q =>
  if (q : Int) ≤ it.2 then min (dp q) it.1
  else if dp (q - it.2.toNat) ≠ MAX_INT_64 then
    min (dp q) (dp (q - it.2.toNat) + it.1)
  else dp q

/-- The dp row after processing a list of items in order. -/
def dpRun (items : List (Int × Int)) : Nat → Int := items.foldl dpStep dpInit

/-- Bounded 0/1 knapsack solver, the source's `_knapsack_impl`.  `none`
models a raised Python exception: the length-mismatch assertion, or the
`max` of an empty candidate list on the final line.  The dp row is a
function rather than an array; only indices `0 … upper_bound + 1` are ever
consulted, exactly the array slots of the source. -/
def knapsackImpl (weights profits : List Int) (capacity : Rat)
    (upper_bound : Int) : Option Int :=
  if weights.length = profits.length then
    match (weights.zip profits).find?
        (fun it => decide ((it.1 : Rat) ≤ capacity) && decide (upper_bound < it.2)) with
    | some it => some it.2
    | none =>
      let items := (weights.zip profits).filter (fun it => decide (0 < it.2))
      (((List.range (upper_bound + 2).toNat).filter
          (fun q => decide ((dpRun items q : Rat) ≤ capacity))).max?).map Int.ofNat
  else none

/-- Python `int()` on a `Fraction`: truncation toward zero. -/
def ratTrunc (q : Rat) : Int := q.num.tdiv (q.den : Int)

/-- The source's `knapsack` entry point (source lines 17–54).  With
`no_jit` the pure implementation runs on the arguments unchanged; otherwise
the capacity is truncated to an integer and either the JIT kernel or — when
`sum(weights)`, `sum(profits)` or the capacity exceeds `MAX_INT_64` — the
pure fallback runs.  The JIT kernel `_knapsack_jit_int` is `_knapsack_impl`
compiled by `register_jitable` from the same source text, and under the
overflow pre-check every intermediate value fits in 64 bits (any genuine dp
entry is a subset weight bounded by `sum(weights)`, and the sentinel is
never incremented), so both backends compute `_knapsack_impl` on identical
arguments and the model merges the two branches. -/
def knapsack (weights profits : List Int) (capacity : Rat)
    (upper_bound : Int) (no_jit : Bool) : Option Int :=
  if weights.length = 0 then none
  else if no_jit then knapsackImpl weights profits capacity upper_bound
  else knapsackImpl weights profits ((ratTrunc capacity : Int) : Rat) upper_bound

/-- Profit density `profits[i] / weights[i]`, the sort key of
`knapsack_upper_bound` (source line 114). -/
def density (it : Int × Int) : Rat := (it.2 : Rat) / (it.1 : Rat)

/-- Insert an item into a list sorted by non-increasing density, before the
first strictly denser-below element.  On density ties the inserted item
(earlier in the original order) comes first, matching the stability of
Python's `sorted`. -/
def insertDesc (a : Int × Int) : List (Int × Int) → List (Int × Int)
  | [] => [a]
  | b :: l => if density b ≤ density a then a :: b :: l else b :: insertDesc a l

/-- Stable sort by non-increasing density, modeling
`sorted(range(n), key=lambda i: profits[i] / weights[i], reverse=True)`
applied to the item list. -/
def sortDesc : List (Int × Int) → List (Int × Int)
  | [] => []
  | a :: l => insertDesc a (sortDesc l)

/-- The greedy fractional scan of `knapsack_upper_bound` (source lines
116–123): take whole items while they fit, then a fractional slice of the
first item that does not fit and stop. -/
def greedy : List (Int × Int) → Rat → Rat
  | [], _ => 0
  | it :: rest, cap =>
    if (it.1 : Rat) ≤ cap then (it.2 : Rat) + greedy rest (cap - it.1)
    else (it.2 : Rat) * (cap / (it.1 : Rat))

/-- The source's `knapsack_upper_bound` (source lines 99–125).  `none`
models the length-mismatch assertion and the `ZeroDivisionError` raised
while computing the sort key of a zero-weight party. -/
def knapsack_upper_bound (weights profits : List Int) (capacity : Rat) :
    Option Rat :=
  if profits.length = weights.length then
    if (0 : Int) ∈ weights then none
    else some (greedy (sortDesc (weights.zip profits)) capacity)
  else none

/-- The record of `solver/wr.py`: an instance of the Weight Restriction
problem, with the derived fields the constructor stores. -/
structure WeightRestriction where
  n : Nat
  weights : List Int
  total_weight : Int
  threshold_weight : Rat
  tw : Rat
  tn : Rat

/-- Field computation of `WeightRestriction.__init__` (wr.py lines 9–28). -/
def WeightRestriction.ofData (weights : List Int) (tw tn : Rat) :
    WeightRestriction :=
  ⟨weights.length, weights, weights.sum, tw * (weights.sum : Rat), tw, tn⟩

/-- The constructor `WeightRestriction.__init__` as a fallible call, so that
the claim that construction can throw is statable.  The source constructor
contains no validation and no raise statement, so the model always
returns `some`. -/
def WeightRestriction.init (weights : List Int) (tw tn : Rat) :
    Option WeightRestriction :=
  some (WeightRestriction.ofData weights tw tn)

/-- The record of `solver/wq.py`: an instance of the Weight Qualification
problem (weights restricted to the integer case the solver consumes). -/
structure WeightQualification where
  n : Nat
  weights : List Int
  total_weight : Int
  threshold_weight : Rat
  tw : Rat
  tn : Rat

/-- Field computation of `WeightQualification.__init__` (wq.py lines 11–33). -/
def WeightQualification.ofData (weights : List Int) (tw tn : Rat) :
    WeightQualification :=
  ⟨weights.length, weights, weights.sum, tw * (weights.sum : Rat), tw, tn⟩

/-- The constructor `WeightQualification.__init__` as a fallible call; like
the WR constructor it has no validation and never throws. -/
def WeightQualification.init (weights : List Int) (tw tn : Rat) :
    Option WeightQualification :=
  some (WeightQualification.ofData weights tw tn)

/-- The WQ→WR reduction `WeightQualification.to_wr` (wq.py lines 43–44). -/
def WeightQualification.to_wr (q : WeightQualification) : WeightRestriction :=
  WeightRestriction.ofData q.weights (1 - q.tw) (1 - q.tn)

/-- The driver's WR threshold check (main.py lines 108–111): `true` means
the driver prints an error and exits with status 1. -/
def mainWrThresholdRejected (tw tn : Rat) : Bool := decide (tn ≤ tw)

/-- The driver's WQ threshold check (main.py lines 114–117): `true` means
the driver prints an error and exits with status 1. -/
def mainWqThresholdRejected (tw tn : Rat) : Bool := decide (tw ≤ tn)

/-- The analytic scale upper bound `wr_upper_bound_s` (source lines 34–40). -/
def wr_upper_bound_s (inst : WeightRestriction) : Rat :=
  inst.tn * (1 - inst.tw) * (inst.n : Rat) /
    ((inst.tn - inst.tw) * (inst.total_weight : Rat))

/-- The claimed bound on total tickets, `wr_solution_upper_bound`
(source lines 43–45). -/
def wr_solution_upper_bound (inst : WeightRestriction) : Int :=
  ⌈inst.tw * (1 - inst.tw) / (inst.tn - inst.tw) * (inst.n : Rat)⌉

/-- Ticket allocation at scale `s` with rounding shift `shift`
(source lines 48–49): `t i = ⌊weights i * s + shift⌋`. -/
def allocate (inst : WeightRestriction) (s shift : Rat) : List Int :=
  inst.weights.map (fun w : Int => ⌊(w : Rat) * s + shift⌋)

/-- The coarse-phase verdict: the linear-relaxation bound certifies the
allocation valid (`knapsack_upper_bound(...) < tn * sum(t)`,
source lines 79 and 146). -/
def ubVerdict (inst : WeightRestriction) (C : Int) (t : List Int) :
    Option Bool := do
  let ub ← knapsack_upper_bound inst.weights t (C : Rat)
  pure (decide (ub < inst.tn * (t.sum : Rat)))

/-- The exact-phase verdict: the knapsack oracle run with cap
`⌊sum(t) * tn⌋ + 1` certifies the allocation valid
(`knapsack(...) < tn * sum(t)`, source lines 111–113 and 179–181). -/
def exactVerdict (inst : WeightRestriction) (C : Int) (no_jit : Bool)
    (t : List Int) : Option Bool := do
  let r ← knapsack inst.weights t (C : Rat) (⌊(t.sum : Rat) * inst.tn⌋ + 1) no_jit
  pure (decide ((r : Rat) < inst.tn * (t.sum : Rat)))

/-- The validator `wr_solution_valid` (source lines 199–202). -/
def wr_solution_valid (inst : WeightRestriction) (t : List Int)
    (no_jit : Bool) : Option Bool := do
  let r ← knapsack inst.weights t ((⌈inst.threshold_weight⌉ - 1 : Int) : Rat)
    (⌊(t.sum : Rat) * inst.tn⌋ + 1) no_jit
  pure (decide ((r : Rat) < inst.tn * (t.sum : Rat)))

/-- Phase 1a of `wr_solve` (source lines 72–83): plain binary search on the
scale using the linear-relaxation verdict, while `s_high - s_low ≥ eps`.
The midpoint `s_mid = (s_high + s_low) / 2` of the source is inlined. -/
def phase1a (inst : WeightRestriction) (C : Int) (eps : Rat) :
    Nat → Rat → Rat → Option (Rat × Rat)
  | 0, _, _ => none
  | fuel + 1, s_low, s_high =>
    if eps ≤ s_high - s_low then
      do
      let v ← ubVerdict inst C (allocate inst ((s_high + s_low) / 2) inst.tw)
      if v then phase1a inst C eps fuel s_low ((s_high + s_low) / 2)
      else phase1a inst C eps fuel ((s_high + s_low) / 2) s_high
    else some (s_low, s_high)

/-- Phase 1b of `wr_solve` (source lines 93–117): accelerated binary search
with the exact verdict; `speed` doubles while probing near `s_high`.  The
probe point of the source (`s_high - speed` in the accelerated branch, the
midpoint otherwise) is inlined into each branch. -/
def phase1b (inst : WeightRestriction) (C : Int) (eps : Rat) (no_jit : Bool) :
    Nat → Rat → Rat → Rat → Option (Rat × Rat)
  | 0, _, _, _ => none
  | fuel + 1, speed, s_low, s_high =>
    if eps ≤ s_high - s_low then
      if 2 * speed < s_high - s_low then
        do
        let v ← exactVerdict inst C no_jit (allocate inst (s_high - speed) inst.tw)
        if v then phase1b inst C eps no_jit fuel (speed * 2) s_low (s_high - speed)
        else phase1b inst C eps no_jit fuel (speed * 2) (s_high - speed) s_high
      else
        do
        let v ← exactVerdict inst C no_jit (allocate inst ((s_high + s_low) / 2) inst.tw)
        if v then phase1b inst C eps no_jit fuel speed s_low ((s_high + s_low) / 2)
        else phase1b inst C eps no_jit fuel speed ((s_high + s_low) / 2) s_high
    else some (s_low, s_high)

/-- The boundary set of `wr_solve` line 124: the parties whose ticket
counts differ between the two scales, in index order. -/
def borderSet (inst : WeightRestriction) (s_low s_high : Rat) : List Nat :=
  (List.range inst.n).filter
    (fun i => decide ((allocate inst s_low inst.tw).getD i 0 ≠
      (allocate inst s_high inst.tw).getD i 0))

/-- The mixed allocation `t^(k)` of the boundary refinement (source lines
144, 176 and 189): `t_high` on the first `k` boundary parties, `t_low` on
the rest of the boundary, either on the parties outside the boundary. -/
def mixAlloc (t_low t_high : List Int) (border : List Nat) (k : Nat) :
    List Int :=
  (List.range t_low.length).map
    (fun i => if i ∈ border.drop k then t_low.getD i 0 else t_high.getD i 0)

/-- Phase 2a of `wr_solve` (source lines 139–149): plain binary search on
the boundary cut `k` using the linear-relaxation verdict, while
`k_high - k_low > 1`. -/
def phase2a (inst : WeightRestriction) (C : Int) (t_low t_high : List Int)
    (border : List Nat) : Nat → Nat → Nat → Option (Nat × Nat)
  | 0, _, _ => none
  | fuel + 1, k_low, k_high =>
    if 1 < k_high - k_low then
      do
      let v ← ubVerdict inst C (mixAlloc t_low t_high border ((k_high + k_low) / 2))
      if v then phase2a inst C t_low t_high border fuel k_low ((k_high + k_low) / 2)
      else phase2a inst C t_low t_high border fuel ((k_high + k_low) / 2) k_high
    else some (k_low, k_high)

/-- Phase 2b of `wr_solve` (source lines 161–185): accelerated binary
search on the boundary cut with the exact verdict. -/
def phase2b (inst : WeightRestriction) (C : Int) (no_jit : Bool)
    (t_low t_high : List Int) (border : List Nat) :
    Nat → Nat → Nat → Nat → Option (Nat × Nat)
  | 0, _, _, _ => none
  | fuel + 1, speed, k_low, k_high =>
    if 1 < k_high - k_low then
      if 2 * speed < k_high - k_low then
        do
        let v ← exactVerdict inst C no_jit (mixAlloc t_low t_high border (k_high - speed))
        if v then phase2b inst C no_jit t_low t_high border fuel (speed * 2) k_low (k_high - speed)
        else phase2b inst C no_jit t_low t_high border fuel (speed * 2) (k_high - speed) k_high
      else
        do
        let v ← exactVerdict inst C no_jit (mixAlloc t_low t_high border ((k_high + k_low) / 2))
        if v then phase2b inst C no_jit t_low t_high border fuel speed k_low ((k_high + k_low) / 2)
        else phase2b inst C no_jit t_low t_high border fuel speed ((k_high + k_low) / 2) k_high
    else some (k_low, k_high)

/-- The scale search of `wr_solve`: phase 1a followed, unless `linear`, by
phase 1b restarted from `s_low = 0` with `speed = eps`
(source lines 72–119). -/
def wr_scale_search (inst : WeightRestriction) (C : Int) (eps : Rat)
    (linear no_jit : Bool) (fuel : Nat) : Option (Rat × Rat) :=
  (phase1a inst C eps fuel 0 (wr_upper_bound_s inst)).bind (fun p1 =>
    if linear then some p1 else phase1b inst C eps no_jit fuel eps 0 p1.2)

/-- The boundary refinement of `wr_solve`: phase 2a followed, unless
`linear`, by phase 2b restarted from `k_low = 0` with `speed = 1`
(source lines 132–187). -/
def wr_border_search (inst : WeightRestriction) (C : Int) (no_jit : Bool)
    (t_low t_high : List Int) (border : List Nat) (linear : Bool)
    (fuel : Nat) : Option (Nat × Nat) :=
  (phase2a inst C t_low t_high border fuel 0 border.length).bind (fun q1 =>
    if linear then some q1 else phase2b inst C no_jit t_low t_high border fuel 1 0 q1.2)

/-- The solver `wr_solve` (source lines 52–196), without the optional
`verify` assertions.  `none` models: `max` of an empty weight list;
`Fraction(1, 0)` when the maximum weight is zero; the `ZeroDivisionError`
of `wr_upper_bound_s` when `(tn - tw) * W = 0`; the failed boundary
assertion of line 125; a crash inside an oracle call; or fuel exhaustion
(the source loops only terminate for well-formed instances). -/
def wr_solve (inst : WeightRestriction) (linear no_jit : Bool) (fuel : Nat) :
    Option (List Int) :=
  match inst.weights.max? with
  | none => none
  | some m =>
    if m = 0 then none
    else if (inst.tn - inst.tw) * (inst.total_weight : Rat) = 0 then none
    else
      (wr_scale_search inst (⌈inst.threshold_weight⌉ - 1) (1 / (m : Rat))
          linear no_jit fuel).bind (fun p2 =>
      if (borderSet inst p2.1 p2.2).all
          (fun i => decide ((allocate inst p2.1 inst.tw).getD i 0 =
            (allocate inst p2.2 inst.tw).getD i 0 - 1)) then
        (wr_border_search inst (⌈inst.threshold_weight⌉ - 1) no_jit
            (allocate inst p2.1 inst.tw) (allocate inst p2.2 inst.tw)
            (borderSet inst p2.1 p2.2) linear fuel).bind (fun q2 =>
        some (mixAlloc (allocate inst p2.1 inst.tw) (allocate inst p2.2 inst.tw)
          (borderSet inst p2.1 p2.2) q2.2))
      else none)

/-- The solver `wq_solve` (source lines 25–31). -/
def wq_solve (inst : WeightQualification) (linear no_jit : Bool) (fuel : Nat) :
    Option (List Int) :=
  wr_solve inst.to_wr linear no_jit fuel

/-- The Weight Restriction property of spec §8 invariant 1: no coalition of
parties with total weight at most `⌈tw * W⌉ - 1` holds `tn * Σ t` or more
tickets.  Coalitions are sublists of the party list zipped with the
allocation. -/
def WRValidProp (inst : WeightRestriction) (t : List Int) : Prop :=
  ∀ S, S.Sublist (inst.weights.zip t) →
    weightL S ≤ ⌈inst.tw * (inst.weights.sum : Rat)⌉ - 1 →
    (profitL S : Rat) < inst.tn * (t.sum : Rat)

/-- Brute-force knapsack optimum from the oracle contract of spec §4.C: the
maximum profit of a sublist of items whose weight fits in the capacity
(0 when no sublist qualifies, the empty sublist qualifying whenever the
capacity is nonnegative). -/
def bruteOpt (weights profits : List Int) (capacity : Rat) : Int :=
  ((((weights.zip profits).sublists).filter
      (fun S => decide ((weightL S : Rat) ≤ capacity))).map profitL).foldl max 0

/-! ### Elementary facts about item sums -/

theorem weightL_nil : weightL [] = 0 := rfl

theorem profitL_nil : profitL [] = 0 := rfl

theorem weightL_cons (a : Int × Int) (l : List (Int × Int)) :
    weightL (a :: l) = a.1 + weightL l := by
  simp [weightL]

theorem profitL_cons (a : Int × Int) (l : List (Int × Int)) :
    profitL (a :: l) = a.2 + profitL l := by
  simp [profitL]

theorem weightL_append (l₁ l₂ : List (Int × Int)) :
    weightL (l₁ ++ l₂) = weightL l₁ + weightL l₂ := by
  simp [weightL]

theorem profitL_append (l₁ l₂ : List (Int × Int)) :
    profitL (l₁ ++ l₂) = profitL l₁ + profitL l₂ := by
  simp [profitL]

theorem weightL_nonneg (S : List (Int × Int)) (h : ∀ it ∈ S, 0 ≤ it.1) :
    0 ≤ weightL S := by
  induction S with
  | nil => simp [weightL]
  | cons a l ih =>
    rw [weightL_cons]
    have h1 := h a (List.mem_cons_self a l)
    have h2 := ih (fun it hit => h it (List.mem_cons_of_mem a hit))
    omega

theorem profitL_nonneg (S : List (Int × Int)) (h : ∀ it ∈ S, 0 ≤ it.2) :
    0 ≤ profitL S := by
  induction S with
  | nil => simp [profitL]
  | cons a l ih =>
    rw [profitL_cons]
    have h1 := h a (List.mem_cons_self a l)
    have h2 := ih (fun it hit => h it (List.mem_cons_of_mem a hit))
    omega

theorem weightL_sublist_le (S L : List (Int × Int)) (hS : S.Sublist L)
    (h : ∀ it ∈ L, 0 ≤ it.1) : weightL S ≤ weightL L := by
  refine List.Sublist.sum_le_sum (hS.map Prod.fst) ?_
  intro x hx
  rcases List.mem_map.mp hx with ⟨it, hit, rfl⟩
  exact h it hit

theorem profitL_filter_pos (S : List (Int × Int)) (h : ∀ it ∈ S, 0 ≤ it.2) :
    profitL (S.filter (fun it => decide (0 < it.2))) = profitL S := by
  induction S with
  | nil => rfl
  | cons a l ih =>
    have h2 := ih (fun it hit => h it (List.mem_cons_of_mem a hit))
    by_cases ha : 0 < a.2
    · rw [List.filter_cons_of_pos (by simpa using ha), profitL_cons, profitL_cons, h2]
    · have ha0 : a.2 = 0 := le_antisymm (not_lt.mp ha) (h a (List.mem_cons_self a l))
      rw [List.filter_cons_of_neg (by simpa using ha), profitL_cons, h2, ha0]
      omega

theorem weightL_filter_le (S : List (Int × Int)) (p : Int × Int → Bool)
    (h : ∀ it ∈ S, 0 ≤ it.1) : weightL (S.filter p) ≤ weightL S :=
  weightL_sublist_le _ _ (List.filter_sublist S) h

/-! ### The dynamic program of the knapsack oracle -/

theorem dpStep_le (dp : Nat → Int) (it : Int × Int) (q : Nat) :
    dpStep dp it q ≤ dp q := by
  unfold dpStep
  split
  · exact min_le_left _ _
  · split
    · exact min_le_left _ _
    · exact le_refl _

theorem dp_le_sentinel_aux (items : List (Int × Int)) :
    ∀ dp : Nat → Int, (∀ q, dp q ≤ MAX_INT_64) →
      ∀ q, (items.foldl dpStep dp) q ≤ MAX_INT_64 := by
  induction items with
  | nil => intro dp h q; exact h q
  | cons it rest ih =>
    intro dp h q
    exact ih (dpStep dp it) (fun q' => le_trans (dpStep_le dp it q') (h q')) q

theorem dpInit_le_sentinel (q : Nat) : dpInit q ≤ MAX_INT_64 := by
  unfold dpInit MAX_INT_64
  split <;> omega

theorem dp_le_sentinel (items : List (Int × Int)) (q : Nat) :
    dpRun items q ≤ MAX_INT_64 :=
  dp_le_sentinel_aux items dpInit dpInit_le_sentinel q

/-- Achievability: if some sublist of the items reaches profit `q` with
total weight below the sentinel, the dp row reaches `q` with at most that
weight.  Stated in a generalized form over the starting row, with `c`
accounting for the weight already committed. -/
theorem dp_reach_gen (items : List (Int × Int)) :
    ∀ (dp : Nat → Int) (c : Int) (S : List (Int × Int)),
      (∀ it ∈ items, 0 ≤ it.1 ∧ 1 ≤ it.2) →
      S.Sublist items → 0 ≤ c → c + weightL S < MAX_INT_64 →
      ∀ q : Nat, (∀ j : Nat, (j : Int) ≤ (q : Int) - profitL S → dp j ≤ c) →
      (items.foldl dpStep dp) q ≤ c + weightL S := by
  induction items with
  | nil =>
    intro dp c S _ hS hc _ q hdp
    obtain rfl := List.sublist_nil.mp hS
    simpa [weightL_nil] using hdp q (by simp [profitL_nil])
  | cons it rest ih =>
    intro dp c S hits hS hc hM q hdp
    have hit1 : 0 ≤ it.1 ∧ 1 ≤ it.2 := hits it (List.mem_cons_self it rest)
    have hrest : ∀ x ∈ rest, 0 ≤ x.1 ∧ 1 ≤ x.2 :=
      fun x hx => hits x (List.mem_cons_of_mem it hx)
    cases hS with
    | cons =>
      rename_i hS'
      exact ih (dpStep dp it) c S hrest hS' hc hM q
        (fun j hj => le_trans (dpStep_le dp it j) (hdp j hj))
    | cons₂ =>
      rename_i S' hS'
      rw [List.foldl_cons, weightL_cons, ← add_assoc]
      have hwS' : 0 ≤ weightL S' :=
        weightL_nonneg S' (fun x hx => ((hrest x (hS'.subset hx)).1))
      have hcM : c < MAX_INT_64 := by
        have : 0 ≤ weightL (it :: S') :=
          weightL_nonneg _ (fun x hx => (hits x ((List.cons_sublist_cons.mpr hS').subset hx)).1)
        omega
      refine ih (dpStep dp it) (c + it.1) S' hrest hS' (by omega)
        (by rw [weightL_cons] at hM; omega) q ?_
      intro j hj
      rw [profitL_cons] at hdp
      unfold dpStep
      split
      · exact le_trans (min_le_right _ _) (by omega)
      · rename_i hjp
        have hjp' : it.2 < (j : Int) := by omega
        have hcast : ((j - it.2.toNat : Nat) : Int) = (j : Int) - it.2 := by
          have h2 : (0:Int) ≤ it.2 := by omega
          have : it.2.toNat ≤ j := by omega
          push_cast [this]
          omega
        have hdpj : dp (j - it.2.toNat) ≤ c := by
          apply hdp
          rw [hcast]
          omega
        split
        · exact le_trans (min_le_right _ _) (by omega)
        · rename_i hguard
          exact absurd (by omega : dp (j - it.2.toNat) < MAX_INT_64)
            (by push_neg at hguard ⊢; omega)

/-- Soundness: any dp entry strictly below the sentinel is the weight of an
actual sublist of the items reaching that profit level. -/
theorem dp_sound (items : List (Int × Int)) (hits : ∀ it ∈ items, 0 ≤ it.2) :
    ∀ q : Nat, dpRun items q < MAX_INT_64 →
      ∃ S, S.Sublist items ∧ (q : Int) ≤ profitL S ∧ weightL S ≤ dpRun items q := by
  induction items using List.reverseRecOn with
  | nil =>
    intro q hq
    unfold dpRun dpInit at hq ⊢
    simp only [List.foldl_nil] at hq ⊢
    by_cases h0 : q = 0
    · exact ⟨[], List.Sublist.refl _, by simp [profitL_nil, h0], by simp [weightL_nil, h0]⟩
    · rw [if_neg h0] at hq; omega
  | append_singleton l a ihl =>
    intro q hq
    have ih := ihl (fun it hit => hits it (List.mem_append_left _ hit))
    have ha2 : 0 ≤ a.2 := hits a (List.mem_append_right _ (List.mem_cons_self a []))
    have hrw : dpRun (l ++ [a]) = dpStep (dpRun l) a := by
      unfold dpRun; rw [List.foldl_append]; rfl
    rw [hrw] at hq ⊢
    have hsubl : ∀ S : List (Int × Int), S.Sublist l → S.Sublist (l ++ [a]) :=
      fun S h => List.Sublist.trans h (List.sublist_append_left l [a])
    unfold dpStep at hq ⊢
    by_cases hqa : (q : Int) ≤ a.2
    · rw [if_pos hqa] at hq ⊢
      rcases min_cases (dpRun l q) a.1 with ⟨hmin, hle⟩ | ⟨hmin, hlt⟩ <;>
        rw [hmin] at hq ⊢
      · obtain ⟨S, h1, h2, h3⟩ := ih q hq
        exact ⟨S, hsubl S h1, h2, h3⟩
      · refine ⟨[a], List.sublist_append_right l [a], ?_, ?_⟩
        · simpa [profitL_cons, profitL_nil] using hqa
        · simp [weightL_cons, weightL_nil]
    · rw [if_neg hqa] at hq ⊢
      by_cases hguard : dpRun l (q - a.2.toNat) ≠ MAX_INT_64
      · rw [if_pos hguard] at hq ⊢
        have hltg : dpRun l (q - a.2.toNat) < MAX_INT_64 :=
          lt_of_le_of_ne (dp_le_sentinel l _) hguard
        rcases min_cases (dpRun l q) (dpRun l (q - a.2.toNat) + a.1) with
          ⟨hmin, hle⟩ | ⟨hmin, hlt2⟩ <;> rw [hmin] at hq ⊢
        · obtain ⟨S, h1, h2, h3⟩ := ih q hq
          exact ⟨S, hsubl S h1, h2, h3⟩
        · obtain ⟨S, h1, h2, h3⟩ := ih (q - a.2.toNat) hltg
          refine ⟨S ++ [a], h1.append (List.Sublist.refl [a]), ?_, ?_⟩
          · rw [profitL_append, profitL_cons, profitL_nil]
            have hcast : ((q - a.2.toNat : Nat) : Int) = (q : Int) - a.2 := by
              have h2' : a.2.toNat ≤ q := by omega
              push_cast [h2']
              omega
            rw [hcast] at h2
            omega
          · rw [weightL_append, weightL_cons, weightL_nil]
            omega
      · rw [if_neg hguard] at hq ⊢
        obtain ⟨S, h1, h2, h3⟩ := ih q hq
        exact ⟨S, hsubl S h1, h2, h3⟩

theorem dp_run_zero_le (items : List (Int × Int)) :
    ∀ dp : Nat → Int, (items.foldl dpStep dp) 0 ≤ dp 0 := by
  induction items with
  | nil => intro dp; exact le_refl _
  | cons it rest ih =>
    intro dp
    exact le_trans (ih (dpStep dp it)) (dpStep_le dp it 0)

/-! ### Facts about the list maximum and the brute-force optimum -/

theorem foldl_max_init_le (l : List Int) : ∀ a : Int, a ≤ l.foldl max a := by
  induction l with
  | nil => intro a; exact le_refl _
  | cons x xs ih =>
    intro a
    exact le_trans (le_max_left a x) (ih (max a x))

theorem foldl_max_ge_mem (l : List Int) (x : Int) (hx : x ∈ l) :
    ∀ a : Int, x ≤ l.foldl max a := by
  induction l with
  | nil => exact absurd hx (List.not_mem_nil x)
  | cons y ys ih =>
    intro a
    rcases List.mem_cons.mp hx with rfl | hmem
    · exact le_trans (le_max_right a x) (foldl_max_init_le ys (max a x))
    · exact ih hmem (max a y)

theorem foldl_max_cases (l : List Int) : ∀ a : Int,
    l.foldl max a = a ∨ l.foldl max a ∈ l := by
  induction l with
  | nil => intro a; exact Or.inl rfl
  | cons x xs ih =>
    intro a
    rcases ih (max a x) with h | h
    · rw [List.foldl_cons, h]
      rcases max_choice a x with h' | h'
      · rw [h']; exact Or.inl rfl
      · rw [h']; exact Or.inr (List.mem_cons_self x xs)
    · rw [List.foldl_cons]
      exact Or.inr (List.mem_cons_of_mem x h)

theorem bruteOpt_nonneg (w p : List Int) (cap : Rat) : 0 ≤ bruteOpt w p cap :=
  foldl_max_init_le _ 0

theorem bruteOpt_ge (w p : List Int) (cap : Rat) (S : List (Int × Int))
    (hS : S.Sublist (w.zip p)) (hwS : (weightL S : Rat) ≤ cap) :
    profitL S ≤ bruteOpt w p cap := by
  apply foldl_max_ge_mem
  exact List.mem_map_of_mem profitL
    (List.mem_filter.mpr ⟨List.mem_sublists.mpr hS, by simpa using hwS⟩)

theorem bruteOpt_achieved (w p : List Int) (cap : Rat) (hcap : 0 ≤ cap) :
    ∃ S, S.Sublist (w.zip p) ∧ (weightL S : Rat) ≤ cap ∧
      profitL S = bruteOpt w p cap := by
  rcases foldl_max_cases _ 0 with h | h
  · exact ⟨[], List.nil_sublist _, by simpa [weightL_nil] using hcap,
      by simpa [profitL_nil] using h.symm⟩
  · rcases List.mem_map.mp h with ⟨S, hSmem, hSval⟩
    rcases List.mem_filter.mp hSmem with ⟨hSsub, hSw⟩
    exact ⟨S, List.mem_sublists.mp hSsub, by simpa using hSw, hSval⟩

/-! ### Behaviour of the knapsack oracle on a `some` result -/

theorem natMax?_spec (l : List Nat) (m : Nat) (h : l.max? = some m) :
    m ∈ l ∧ ∀ b ∈ l, b ≤ m := by
  rw [List.max?_eq_some_iff (fun a => Nat.le_refl a) (fun a b => max_choice a b)
    (fun a b c => Nat.max_le)] at h
  exact h

theorem mem_items_of_impl (w p : List Int) (hw : ∀ x ∈ w, 0 ≤ x) :
    ∀ it ∈ (w.zip p).filter (fun it => decide (0 < it.2)), 0 ≤ it.1 ∧ 1 ≤ it.2 := by
  intro it hit
  rcases List.mem_filter.mp hit with ⟨hmem, hpos⟩
  rcases List.of_mem_zip (a := it.1) (b := it.2) (by simpa using hmem) with ⟨h1, h2⟩
  exact ⟨hw _ h1, by simpa using hpos⟩

/-- No under-reporting: whenever some coalition of weight within the
capacity reaches an integer profit level `q ≤ U + 1`, the oracle's answer
is at least `q`.  This holds for any capacity, including the overflow
regime where the sentinel corrupts the dp row upward. -/
theorem knapsackImpl_ge (w p : List Int) (cap : Rat) (U r q : Int)
    (hw : ∀ x ∈ w, 0 ≤ x) (hp : ∀ x ∈ p, 0 ≤ x)
    (hres : knapsackImpl w p cap U = some r)
    (S : List (Int × Int)) (hS : S.Sublist (w.zip p))
    (hwS : (weightL S : Rat) ≤ cap)
    (hq0 : 0 ≤ q) (hqU : q ≤ U + 1) (hpS : q ≤ profitL S) :
    q ≤ r := by
  unfold knapsackImpl at hres
  split at hres
  case isFalse => exact absurd hres (by simp)
  rename_i hlen
  split at hres
  · rename_i it hfind
    have hcond := List.find?_some hfind
    simp only [Bool.and_eq_true, decide_eq_true_eq] at hcond
    rw [Option.some_inj] at hres
    omega
  · rename_i hfind
    rw [Option.map_eq_some'] at hres
    obtain ⟨m, hmax, hmr⟩ := hres
    subst hmr
    obtain ⟨hmmem, hmub⟩ := natMax?_spec _ m hmax
    have hqmem : q.toNat ∈ (List.range (U + 2).toNat).filter
        (fun q' => decide ((dpRun ((w.zip p).filter (fun it => decide (0 < it.2))) q' : Rat) ≤ cap)) := by
      apply List.mem_filter.mpr
      refine ⟨List.mem_range.mpr (by omega), ?_⟩
      simp only [decide_eq_true_eq]
      by_cases hcap : (MAX_INT_64 : Rat) ≤ cap
      · exact le_trans (by exact_mod_cast dp_le_sentinel _ _) hcap
      · push_neg at hcap
        have hwM : weightL S < MAX_INT_64 := by
          exact_mod_cast lt_of_le_of_lt hwS hcap
        have hSw : ∀ it ∈ S, 0 ≤ it.1 := by
          intro it hit
          rcases List.of_mem_zip (a := it.1) (b := it.2) (hS.subset hit) with ⟨h1, _⟩
          exact hw _ h1
        have hSp : ∀ it ∈ S, 0 ≤ it.2 := by
          intro it hit
          rcases List.of_mem_zip (a := it.1) (b := it.2) (hS.subset hit) with ⟨_, h2⟩
          exact hp _ h2
        have hreach := dp_reach_gen ((w.zip p).filter (fun it => decide (0 < it.2)))
          dpInit 0 (S.filter (fun it => decide (0 < it.2)))
          (mem_items_of_impl w p hw)
          (hS.filter _) (le_refl 0)
          (by
            have := weightL_filter_le S (fun it => decide (0 < it.2)) hSw
            omega)
          q.toNat
          (by
            intro j hj
            have hpf : profitL (S.filter (fun it => decide (0 < it.2))) = profitL S :=
              profitL_filter_pos S hSp
            have hj0 : (j : Int) ≤ 0 := by
              rw [hpf] at hj
              omega
            have : j = 0 := by omega
            rw [this]
            simp [dpInit])
        have hle : dpRun ((w.zip p).filter (fun it => decide (0 < it.2))) q.toNat ≤ weightL S := by
          have := weightL_filter_le S (fun it => decide (0 < it.2)) hSw
          unfold dpRun
          omega
        calc (dpRun ((w.zip p).filter (fun it => decide (0 < it.2))) q.toNat : Rat)
            ≤ (weightL S : Rat) := by exact_mod_cast hle
          _ ≤ cap := hwS
    have hqm := hmub q.toNat hqmem
    have hofn : Int.ofNat m = (m : Int) := rfl
    rw [hofn]
    omega

/-- Genuineness: below the overflow threshold, a `some` answer is witnessed
by an actual coalition whose weight fits in the capacity. -/
theorem knapsackImpl_le_opt (w p : List Int) (cap : Rat) (U r : Int)
    (hp : ∀ x ∈ p, 0 ≤ x)
    (hcap : cap < (MAX_INT_64 : Rat))
    (hres : knapsackImpl w p cap U = some r) :
    ∃ S, S.Sublist (w.zip p) ∧ (weightL S : Rat) ≤ cap ∧ r ≤ profitL S := by
  unfold knapsackImpl at hres
  split at hres
  case isFalse => exact absurd hres (by simp)
  rename_i hlen
  split at hres
  · rename_i it hfind
    have hcond := List.find?_some hfind
    have hmem := List.mem_of_find?_eq_some hfind
    simp only [Bool.and_eq_true, decide_eq_true_eq] at hcond
    have hr : it.2 = r := by injection hres
    refine ⟨[it], List.singleton_sublist.mpr hmem, ?_, ?_⟩
    · simpa [weightL_cons, weightL_nil] using hcond.1
    · simp [profitL_cons, profitL_nil, hr]
  · rename_i hfind
    rw [Option.map_eq_some'] at hres
    obtain ⟨m, hmax, hmr⟩ := hres
    subst hmr
    obtain ⟨hmmem, _⟩ := natMax?_spec _ m hmax
    rcases List.mem_filter.mp hmmem with ⟨_, hmcap⟩
    simp only [decide_eq_true_eq] at hmcap
    have hlt : dpRun ((w.zip p).filter (fun it => decide (0 < it.2))) m < MAX_INT_64 := by
      exact_mod_cast lt_of_le_of_lt hmcap hcap
    have hip : ∀ it ∈ (w.zip p).filter (fun it => decide (0 < it.2)), 0 ≤ it.2 := by
      intro it hit
      rcases List.mem_filter.mp hit with ⟨hmem, _⟩
      rcases List.of_mem_zip (a := it.1) (b := it.2) (by simpa using hmem) with ⟨_, h2⟩
      exact hp _ h2
    obtain ⟨S, h1, h2, h3⟩ := dp_sound _ hip m hlt
    refine ⟨S, h1.trans (List.filter_sublist _), ?_, h2⟩
    calc (weightL S : Rat) ≤ (dpRun ((w.zip p).filter (fun it => decide (0 < it.2))) m : Rat) := by
          exact_mod_cast h3
      _ ≤ cap := hmcap

theorem optMap_isSome {α β : Type} (f : α → β) (x : Option α) (h : x ≠ none) :
    (x.map f).isSome = true := by
  cases x
  · exact absurd rfl h
  · rfl

/-- Totality of the dp path: with a nonnegative capacity and cap, profit
level 0 always qualifies, so the final `max` is over a nonempty list. -/
theorem knapsackImpl_isSome (w p : List Int) (cap : Rat) (U : Int)
    (hlen : w.length = p.length) (hcap : 0 ≤ cap) (hU : 0 ≤ U) :
    (knapsackImpl w p cap U).isSome = true := by
  unfold knapsackImpl
  rw [if_pos hlen]
  split
  · simp
  · rename_i hfind
    have h0mem : 0 ∈ (List.range (U + 2).toNat).filter
        (fun q => decide ((dpRun ((w.zip p).filter (fun it => decide (0 < it.2))) q : Rat) ≤ cap)) := by
      apply List.mem_filter.mpr
      refine ⟨List.mem_range.mpr (by omega), ?_⟩
      simp only [decide_eq_true_eq]
      have h0 : dpRun ((w.zip p).filter (fun it => decide (0 < it.2))) 0 ≤ 0 := by
        have := dp_run_zero_le ((w.zip p).filter (fun it => decide (0 < it.2))) dpInit
        simpa [dpInit] using this
      calc (dpRun ((w.zip p).filter (fun it => decide (0 < it.2))) 0 : Rat)
          ≤ (0 : Rat) := by exact_mod_cast h0
        _ ≤ cap := hcap
    refine optMap_isSome Int.ofNat _ ?_
    rw [Ne, List.max?_eq_none_iff]
    exact List.ne_nil_of_mem h0mem

/-- Upper bound of the dp path result: every candidate is a profit level in
`range (U+2)`, so the answer never exceeds `U + 1`. -/
theorem knapsackImpl_le_ub_succ (w p : List Int) (cap : Rat) (U r : Int)
    (hres : knapsackImpl w p cap U = some r)
    (hnf : (w.zip p).find?
      (fun it => decide ((it.1 : Rat) ≤ cap) && decide (U < it.2)) = none) :
    r ≤ U + 1 := by
  unfold knapsackImpl at hres
  split at hres
  case isFalse => exact absurd hres (by simp)
  rw [hnf] at hres
  rw [Option.map_eq_some'] at hres
  obtain ⟨m, hmax, hmr⟩ := hres
  subst hmr
  obtain ⟨hmmem, _⟩ := natMax?_spec _ m hmax
  rcases List.mem_filter.mp hmmem with ⟨hrange, _⟩
  have := List.mem_range.mp hrange
  have hofn : Int.ofNat m = (m : Int) := rfl
  rw [hofn]
  omega

theorem ratTrunc_intCast (C : Int) : ratTrunc ((C : Int) : Rat) = C := by
  unfold ratTrunc
  rw [Rat.intCast_num, Rat.intCast_den]
  simp [Int.tdiv_one]

/-- On an integer capacity the dispatcher always runs `_knapsack_impl` on
the very same arguments, in all backend modes. -/
theorem knapsack_eq_impl (w p : List Int) (C U : Int) (no_jit : Bool)
    (hne : w.length ≠ 0) :
    knapsack w p (C : Rat) U no_jit = knapsackImpl w p (C : Rat) U := by
  unfold knapsack
  rw [if_neg hne]
  cases no_jit
  · rw [if_neg (by simp), ratTrunc_intCast]
  · rw [if_pos rfl]

/-- Validity of an allocation against an explicit integer weight budget:
no coalition within the budget reaches a `tn` fraction of the tickets. -/
def validAt (inst : WeightRestriction) (C : Int) (t : List Int) : Prop :=
  ∀ S, S.Sublist (inst.weights.zip t) → weightL S ≤ C →
    (profitL S : Rat) < inst.tn * (t.sum : Rat)

theorem allocate_length (inst : WeightRestriction) (s shift : Rat) :
    (allocate inst s shift).length = inst.weights.length :=
  List.length_map _ _

theorem profitL_zip (w t : List Int) (h : t.length ≤ w.length) :
    profitL (w.zip t) = t.sum := by
  unfold profitL
  rw [List.map_snd_zip w t h]

/-! ### Soundness of the exact-oracle verdict -/

theorem exactVerdict_sound (inst : WeightRestriction) (C : Int) (no_jit : Bool)
    (t : List Int)
    (hw : ∀ x ∈ inst.weights, 0 ≤ x) (hp : ∀ x ∈ t, 0 ≤ x)
    (htn : 0 ≤ inst.tn)
    (hres : exactVerdict inst C no_jit t = some true) : validAt inst C t := by
  unfold exactVerdict at hres
  rcases hk : knapsack inst.weights t (C : Rat) (⌊(t.sum : Rat) * inst.tn⌋ + 1) no_jit
    with _ | r
  · rw [hk] at hres; exact absurd hres (by simp)
  rw [hk] at hres
  simp only [Option.bind_eq_bind, Option.some_bind, pure, Option.some_inj,
    decide_eq_true_eq] at hres
  have hne : inst.weights.length ≠ 0 := by
    intro h
    unfold knapsack at hk
    rw [if_pos h] at hk
    exact absurd hk (by simp)
  rw [knapsack_eq_impl _ _ _ _ _ hne] at hk
  intro S hS hwS
  by_contra hcon
  push_neg at hcon
  rw [mul_comm] at hcon hres
  have hT0 : (0 : Rat) ≤ (t.sum : Rat) := by
    have : (0 : Int) ≤ t.sum := List.sum_nonneg hp
    exact_mod_cast this
  have hq0 : 0 ≤ ⌈(t.sum : Rat) * inst.tn⌉ := Int.ceil_nonneg (by positivity)
  have hqU : ⌈(t.sum : Rat) * inst.tn⌉ ≤ (⌊(t.sum : Rat) * inst.tn⌋ + 1) + 1 := by
    have := Int.ceil_le_floor_add_one ((t.sum : Rat) * inst.tn)
    omega
  have hpq : ⌈(t.sum : Rat) * inst.tn⌉ ≤ profitL S := by
    rw [Int.ceil_le]
    exact_mod_cast hcon
  have hge := knapsackImpl_ge inst.weights t ((C : Int) : Rat)
    (⌊(t.sum : Rat) * inst.tn⌋ + 1) r ⌈(t.sum : Rat) * inst.tn⌉ hw hp hk S hS
    (by exact_mod_cast hwS) hq0 hqU hpq
  have hrq : (t.sum : Rat) * inst.tn ≤ (r : Rat) := by
    calc (t.sum : Rat) * inst.tn ≤ (⌈(t.sum : Rat) * inst.tn⌉ : Rat) := Int.le_ceil _
      _ ≤ (r : Rat) := by exact_mod_cast hge
  linarith [hres]

/-! ### Bounds maintained by the scale-search loops -/

theorem phase1a_bounds (inst : WeightRestriction) (C : Int) (eps : Rat) :
    ∀ (fuel : Nat) (sl sh : Rat) (out : Rat × Rat),
      0 ≤ sl → sl ≤ sh →
      phase1a inst C eps fuel sl sh = some out →
      0 ≤ out.1 ∧ out.1 ≤ out.2 ∧ out.2 - out.1 < eps ∧ out.2 ≤ sh := by
  intro fuel
  induction fuel with
  | zero =>
    intro sl sh out _ _ h
    exact absurd h (by simp [phase1a])
  | succ fuel ih =>
    intro sl sh out h0 h1 h
    unfold phase1a at h
    split at h
    · rcases hub : ubVerdict inst C (allocate inst ((sh + sl) / 2) inst.tw) with _ | v
      · rw [hub] at h
        exact absurd h (by simp)
      · rw [hub] at h
        simp only [Option.bind_eq_bind, Option.some_bind] at h
        cases v
        · rw [if_neg (by simp)] at h
          exact ih ((sh + sl) / 2) sh out (by linarith) (by linarith) h
        · rw [if_pos rfl] at h
          obtain ⟨a1, a2, a3, a4⟩ := ih sl ((sh + sl) / 2) out h0 (by linarith) h
          exact ⟨a1, a2, a3, by linarith⟩
    · rename_i hguard
      rw [Option.some_inj] at h
      subst h
      push_neg at hguard
      exact ⟨h0, h1, by linarith, le_refl _⟩

theorem phase1b_bounds (inst : WeightRestriction) (C : Int) (eps : Rat)
    (no_jit : Bool) :
    ∀ (fuel : Nat) (speed sl sh : Rat) (out : Rat × Rat),
      0 < speed → 0 ≤ sl → sl ≤ sh →
      phase1b inst C eps no_jit fuel speed sl sh = some out →
      0 ≤ out.1 ∧ out.1 ≤ out.2 ∧ out.2 - out.1 < eps ∧ out.2 ≤ sh := by
  intro fuel
  induction fuel with
  | zero =>
    intro speed sl sh out _ _ _ h
    exact absurd h (by simp [phase1b])
  | succ fuel ih =>
    intro speed sl sh out hsp h0 h1 h
    unfold phase1b at h
    split at h
    · rename_i hguard
      split at h
      · rename_i hacc
        rcases hub : exactVerdict inst C no_jit
            (allocate inst (sh - speed) inst.tw) with _ | v
        · rw [hub] at h
          exact absurd h (by simp)
        · rw [hub] at h
          simp only [Option.bind_eq_bind, Option.some_bind] at h
          cases v
          · rw [if_neg (by simp)] at h
            exact ih (speed * 2) (sh - speed) sh out (by linarith) (by linarith)
              (by linarith) h
          · rw [if_pos rfl] at h
            obtain ⟨a1, a2, a3, a4⟩ := ih (speed * 2) sl (sh - speed) out
              (by linarith) h0 (by linarith) h
            exact ⟨a1, a2, a3, by linarith⟩
      · rcases hub : exactVerdict inst C no_jit
            (allocate inst ((sh + sl) / 2) inst.tw) with _ | v
        · rw [hub] at h
          exact absurd h (by simp)
        · rw [hub] at h
          simp only [Option.bind_eq_bind, Option.some_bind] at h
          cases v
          · rw [if_neg (by simp)] at h
            exact ih speed ((sh + sl) / 2) sh out hsp (by linarith) (by linarith) h
          · rw [if_pos rfl] at h
            obtain ⟨a1, a2, a3, a4⟩ := ih speed sl ((sh + sl) / 2) out hsp h0
              (by linarith) h
            exact ⟨a1, a2, a3, by linarith⟩
    · rename_i hguard
      rw [Option.some_inj] at h
      subst h
      push_neg at hguard
      exact ⟨h0, h1, by linarith, le_refl _⟩

theorem wr_scale_search_bounds (inst : WeightRestriction) (C : Int) (eps : Rat)
    (linear no_jit : Bool) (fuel : Nat) (out : Rat × Rat)
    (heps : 0 < eps) (hs0 : 0 ≤ wr_upper_bound_s inst)
    (h : wr_scale_search inst C eps linear no_jit fuel = some out) :
    0 ≤ out.1 ∧ out.1 ≤ out.2 ∧ out.2 - out.1 < eps ∧
      out.2 ≤ wr_upper_bound_s inst := by
  unfold wr_scale_search at h
  rcases h1 : phase1a inst C eps fuel 0 (wr_upper_bound_s inst) with _ | p1
  · rw [h1] at h
    exact absurd h (by simp)
  · rw [h1] at h
    simp only [Option.bind_eq_bind, Option.some_bind] at h
    obtain ⟨a1, a2, a3, a4⟩ := phase1a_bounds inst C eps fuel 0
      (wr_upper_bound_s inst) p1 (le_refl 0) hs0 h1
    split at h
    · rw [Option.some_inj] at h
      subst h
      exact ⟨a1, a2, a3, a4⟩
    · obtain ⟨b1, b2, b3, b4⟩ := phase1b_bounds inst C eps no_jit fuel eps 0 p1.2
        out heps (le_refl 0) (by linarith) h
      exact ⟨b1, b2, b3, by linarith⟩

/-! ### Boundary structure of the scale search -/

theorem ofData_weights (w : List Int) (tw tn : Rat) :
    (WeightRestriction.ofData w tw tn).weights = w := rfl

theorem intMax?_spec (l : List Int) (m : Int) (h : l.max? = some m) :
    m ∈ l ∧ ∀ b ∈ l, b ≤ m := by
  haveI : Std.Antisymm ((· : Int) ≤ ·) := ⟨fun h1 h2 => le_antisymm h1 h2⟩
  rw [List.max?_eq_some_iff (fun a => le_refl a) (fun a b => max_choice a b)
    (fun a b c => max_le_iff)] at h
  exact h

/-- Two floors at scales within `eps = 1 / m` of each other differ by at
most one on every weight between `0` and `m`. -/
theorem floor_pair_step (a m : Int) (sl sh tw : Rat)
    (ha0 : 0 ≤ a) (ham : a ≤ m) (hm : 0 < m)
    (hds : sl ≤ sh) (hgap : sh - sl < 1 / (m : Rat)) :
    ⌊(a : Rat) * sh + tw⌋ = ⌊(a : Rat) * sl + tw⌋ ∨
      ⌊(a : Rat) * sh + tw⌋ = ⌊(a : Rat) * sl + tw⌋ + 1 := by
  have haR : (0 : Rat) ≤ (a : Rat) := by exact_mod_cast ha0
  have hmR : (0 : Rat) < (m : Rat) := by exact_mod_cast hm
  have hamR : (a : Rat) ≤ (m : Rat) := by exact_mod_cast ham
  have hlow : ⌊(a : Rat) * sl + tw⌋ ≤ ⌊(a : Rat) * sh + tw⌋ := by
    apply Int.floor_le_floor
    nlinarith
  have hdiff : (a : Rat) * sh + tw < ((a : Rat) * sl + tw) + 1 := by
    have h1 : (a : Rat) * (sh - sl) ≤ (m : Rat) * (sh - sl) :=
      mul_le_mul_of_nonneg_right hamR (by linarith)
    have h2 : (m : Rat) * (sh - sl) < (m : Rat) * (1 / (m : Rat)) :=
      mul_lt_mul_of_pos_left hgap hmR
    have h3 : (m : Rat) * (1 / (m : Rat)) = 1 := by
      field_simp
    nlinarith
  have hup : ⌊(a : Rat) * sh + tw⌋ ≤ ⌊(a : Rat) * sl + tw⌋ + 1 := by
    have := Int.floor_le_floor (α := Rat) (le_of_lt hdiff)
    rw [Int.floor_add_one] at this
    exact this
  omega

/-- Boundary structure of the scale search: the allocations at the two
returned scales agree or differ by exactly one ticket, coordinatewise. -/
theorem wr_scale_search_border (w : List Int) (tw tn : Rat) (C : Int)
    (linear no_jit : Bool) (fuel : Nat) (m : Int) (sl sh : Rat)
    (hw : ∀ x ∈ w, 0 ≤ x) (htw : 0 ≤ tw) (hord : tw < tn) (htn1 : tn ≤ 1)
    (hmax : w.max? = some m) (hm : m ≠ 0)
    (hres : wr_scale_search (WeightRestriction.ofData w tw tn) C (1 / (m : Rat))
      linear no_jit fuel = some (sl, sh)) :
    ∀ pr ∈ (allocate (WeightRestriction.ofData w tw tn) sl tw).zip
        (allocate (WeightRestriction.ofData w tw tn) sh tw),
      pr.2 = pr.1 ∨ pr.2 = pr.1 + 1 := by
  obtain ⟨hm_mem, hm_ub⟩ := intMax?_spec w m hmax
  have hm_pos : 0 < m := lt_of_le_of_ne (hw m hm_mem) (Ne.symm hm)
  have heps : 0 < 1 / (m : Rat) := by
    have : (0 : Rat) < (m : Rat) := by exact_mod_cast hm_pos
    positivity
  have hs0 : 0 ≤ wr_upper_bound_s (WeightRestriction.ofData w tw tn) := by
    have hs0eq : wr_upper_bound_s (WeightRestriction.ofData w tw tn)
        = tn * (1 - tw) * (w.length : Rat) / ((tn - tw) * (w.sum : Rat)) := rfl
    rw [hs0eq]
    have hWn : (0 : Rat) ≤ (w.sum : Rat) := by
      exact_mod_cast List.sum_nonneg hw
    have h1 : (0 : Rat) ≤ tn * (1 - tw) * (w.length : Rat) := by
      have ht : 0 ≤ tn := le_of_lt (lt_of_le_of_lt htw hord)
      have h1w : (0:Rat) ≤ 1 - tw := by linarith
      positivity
    have h2 : (0 : Rat) ≤ (tn - tw) * (w.sum : Rat) := by
      have : (0:Rat) ≤ tn - tw := by linarith
      positivity
    exact div_nonneg h1 h2
  obtain ⟨hb1, hb2, hb3, _⟩ := wr_scale_search_bounds
    (WeightRestriction.ofData w tw tn) C (1 / (m : Rat)) linear no_jit fuel
    (sl, sh) heps hs0 hres
  intro pr hpr
  unfold allocate at hpr
  rw [ofData_weights] at hpr
  rw [List.zip_map' (fun x : Int => ⌊(x : Rat) * sl + tw⌋)
    (fun x : Int => ⌊(x : Rat) * sh + tw⌋) w] at hpr
  rcases List.mem_map.mp hpr with ⟨a, ha, rfl⟩
  exact floor_pair_step a m sl sh tw (hw a ha) (hm_ub a ha) hm_pos hb2 hb3

/-! ### Further helpers used only by the claim-level statements -/

theorem profitL_sublist_le (S L : List (Int × Int)) (hS : S.Sublist L)
    (h : ∀ it ∈ L, 0 ≤ it.2) : profitL S ≤ profitL L := by
  refine List.Sublist.sum_le_sum (hS.map Prod.snd) ?_
  intro x hx
  rcases List.mem_map.mp hx with ⟨it, hit, rfl⟩
  exact h it hit

theorem decide_le_floor (z : Int) (C : Rat) :
    decide ((z : Rat) ≤ C) = decide ((z : Rat) ≤ ((⌊C⌋ : Int) : Rat)) := by
  rw [decide_eq_decide]
  constructor
  · intro h
    exact_mod_cast Int.le_floor.mpr h
  · intro h
    exact le_trans h (by exact_mod_cast Int.floor_le C)

/-- Flooring the capacity changes neither the fast-exit test nor the final
feasibility filter of `_knapsack_impl`: both compare integers to it. -/
theorem knapsackImpl_floor_capacity (w p : List Int) (C : Rat) (U : Int) :
    knapsackImpl w p C U = knapsackImpl w p ((⌊C⌋ : Int) : Rat) U := by
  unfold knapsackImpl
  have h1 : (fun it : Int × Int => decide ((it.1 : Rat) ≤ C) && decide (U < it.2))
      = (fun it : Int × Int =>
          decide ((it.1 : Rat) ≤ ((⌊C⌋ : Int) : Rat)) && decide (U < it.2)) := by
    funext it
    rw [decide_le_floor]
  have h2 : (fun q : Nat => decide
        ((dpRun ((w.zip p).filter (fun it => decide (0 < it.2))) q : Rat) ≤ C))
      = (fun q : Nat => decide
        ((dpRun ((w.zip p).filter (fun it => decide (0 < it.2))) q : Rat)
          ≤ ((⌊C⌋ : Int) : Rat))) := by
    funext q
    rw [decide_le_floor]
  simp only [h1, h2]

/-- The source truncation `int(capacity)` agrees with the floor on the
nonnegative capacities the solver passes. -/
theorem ratTrunc_eq_floor (C : Rat) (h : 0 ≤ C) : ratTrunc C = ⌊C⌋ := by
  unfold ratTrunc
  rw [Rat.floor_def]
  exact Int.tdiv_eq_ediv (Rat.num_nonneg.mpr h) (by positivity)

/-! ### The ten claims -/

/-- C2 counterexample: on the overflow fallback path (`no_jit = false`,
sums above the 64-bit word width) with capacity `2^63`, the oracle answers
`11` although no coalition fits at all (exact optimum `0 ≤ U = 10`), so
the claimed contract fails and the comparison `r < T` is wrong for every
threshold `T ≤ 11`. -/
theorem knapsack_contract_overflow_counterexample :
    knapsack [2 ^ 64 + 8] [10] ((2 ^ 63 : Int) : Rat) 10 false = some 11 ∧
    bruteOpt [2 ^ 64 + 8] [10] ((2 ^ 63 : Int) : Rat) = 0 :=
  ⟨by decide, by decide⟩

/-- C2 (amended): the oracle contract holds whenever the capacity is below
the 64-bit sentinel `2^63 - 1`: if the exact optimum is at most `U` the
oracle returns it exactly, and otherwise it returns a value in
`(U, Σ p]`. -/
theorem knapsack_contract_below_word_width (w p : List Int) (C U r : Int)
    (no_jit : Bool)
    (hw : ∀ x ∈ w, 0 ≤ x) (hp : ∀ x ∈ p, 0 ≤ x)
    (hC0 : 0 ≤ C) (hCM : ((C : Int) : Rat) < (MAX_INT_64 : Rat))
    (hU : 0 ≤ U) (hlen : w.length = p.length) (hne : w.length ≠ 0)
    (hres : knapsack w p ((C : Int) : Rat) U no_jit = some r) :
    (bruteOpt w p ((C : Int) : Rat) ≤ U → r = bruteOpt w p ((C : Int) : Rat)) ∧
      (U < bruteOpt w p ((C : Int) : Rat) → U < r ∧ r ≤ p.sum) := by
  rw [knapsack_eq_impl w p C U no_jit hne] at hres
  have hcap0 : (0 : Rat) ≤ ((C : Int) : Rat) := by exact_mod_cast hC0
  have hzip_p : ∀ it ∈ w.zip p, 0 ≤ it.2 := by
    intro it hit
    rcases List.of_mem_zip (a := it.1) (b := it.2) (by simpa using hit) with ⟨_, h2⟩
    exact hp _ h2
  obtain ⟨S₀, hS₀, hw₀, hp₀⟩ := bruteOpt_achieved w p ((C : Int) : Rat) hcap0
  obtain ⟨S₁, hS₁, hw₁, hr₁⟩ := knapsackImpl_le_opt w p ((C : Int) : Rat) U r
    hp hCM hres
  have hle : r ≤ bruteOpt w p ((C : Int) : Rat) :=
    le_trans hr₁ (bruteOpt_ge w p ((C : Int) : Rat) S₁ hS₁ hw₁)
  constructor
  · intro hopt
    have hge := knapsackImpl_ge w p ((C : Int) : Rat) U r
      (bruteOpt w p ((C : Int) : Rat)) hw hp hres S₀ hS₀ hw₀
      (bruteOpt_nonneg w p _) (by omega) (le_of_eq hp₀.symm)
    omega
  · intro hopt
    have hge := knapsackImpl_ge w p ((C : Int) : Rat) U r (U + 1) hw hp hres
      S₀ hS₀ hw₀ (by omega) (le_refl _) (by omega)
    have hsum : profitL S₁ ≤ p.sum := by
      have h1 : profitL S₁ ≤ profitL (w.zip p) :=
        profitL_sublist_le S₁ (w.zip p) hS₁ hzip_p
      rw [profitL_zip w p (le_of_eq hlen.symm)] at h1
      exact h1
    exact ⟨by omega, by omega⟩

/-- Witness for C2 (amended) on `w = p = [3, 2, 2]`, `C = 4`, `U = 10`:
the oracle answer `4` is the exact optimum. -/
theorem knapsack_contract_below_word_width_witness :
    (4 : Int) = bruteOpt [3, 2, 2] [3, 2, 2] ((4 : Int) : Rat) :=
  (knapsack_contract_below_word_width [3, 2, 2] [3, 2, 2] 4 10 4 true
    (by decide) (by decide) (by decide) (by decide) (by decide) (by decide)
    (by decide) (by decide)).1 (by decide)

/-- C3: the claimed ticket bound fails.  On weights `[7, 12, 9, 9, 3, 9]`
with `tw = 1/4`, `tn = 2/3` (a well-formed instance), in both the linear
and the accelerated mode the solver returns `[1, 2, 1, 0, 0, 0]`, whose
total `4` exceeds `wr_solution_upper_bound = ⌈tw(1-tw)n/(tn-tw)⌉ = 3`. -/
theorem wr_solve_exceeds_claimed_ticket_bound :
    (wr_solve (WeightRestriction.ofData [7, 12, 9, 9, 3, 9] (1/4) (2/3))
        false false 64 = some [1, 2, 1, 0, 0, 0] ∧
      wr_solve (WeightRestriction.ofData [7, 12, 9, 9, 3, 9] (1/4) (2/3))
        true true 64 = some [1, 2, 1, 0, 0, 0]) ∧
    wr_solution_upper_bound (WeightRestriction.ofData [7, 12, 9, 9, 3, 9]
        (1/4) (2/3)) < ([1, 2, 1, 0, 0, 0] : List Int).sum :=
  ⟨⟨by decide, by decide⟩, by decide⟩

/-- C4 counterexample: with `w = [2^64]`, `tw = (2^62-1)/2^62`, `tn = 1`
and `t = [1]`, the validator reports `false` although the WR property
holds (the only nonempty coalition exceeds the weight budget), because
the oracle's capacity `2^64 - 5` is past the 64-bit sentinel. -/
theorem wr_solution_valid_rejects_truly_valid_allocation :
    wr_solution_valid
        (WeightRestriction.ofData [2 ^ 64] ((2 ^ 62 - 1) / 2 ^ 62) 1) [1] true
      = some false ∧
    WRValidProp (WeightRestriction.ofData [2 ^ 64] ((2 ^ 62 - 1) / 2 ^ 62) 1)
      [1] := by
  constructor
  · decide
  · intro S hS hwS
    have hS2 : S.Sublist [((2 : Int) ^ 64, (1 : Int))] := hS
    cases hS2 with
    | cons =>
      rename_i hS'
      have hSnil : S = [] := List.sublist_nil.mp hS'
      subst hSnil
      decide
    | cons₂ =>
      rename_i S' hS'
      have hSnil : S' = [] := List.sublist_nil.mp hS'
      subst hSnil
      exact absurd hwS (by decide)

/-- C4 (amended): whenever the validator's capacity `⌈tw·W⌉ - 1` is below
the 64-bit sentinel (and the inputs are well formed), `wr_solution_valid`
returns `true` exactly when the WR property holds. -/
theorem wr_solution_valid_iff_below_word_width (w t : List Int) (tw tn : Rat)
    (no_jit : Bool) (b : Bool)
    (hw : ∀ x ∈ w, 0 ≤ x) (hp : ∀ x ∈ t, 0 ≤ x) (htn : 0 ≤ tn)
    (hne : w.length ≠ 0)
    (hCM : ((⌈tw * (w.sum : Rat)⌉ - 1 : Int) : Rat) < (MAX_INT_64 : Rat))
    (hres : wr_solution_valid (WeightRestriction.ofData w tw tn) t no_jit
      = some b) :
    b = true ↔ WRValidProp (WeightRestriction.ofData w tw tn) t := by
  have hEV : exactVerdict (WeightRestriction.ofData w tw tn)
      (⌈(WeightRestriction.ofData w tw tn).threshold_weight⌉ - 1) no_jit t
      = some b := hres
  constructor
  · rintro rfl
    have hval := exactVerdict_sound (WeightRestriction.ofData w tw tn)
      (⌈(WeightRestriction.ofData w tw tn).threshold_weight⌉ - 1) no_jit t
      hw hp htn hEV
    intro S hS hwS
    exact hval S hS hwS
  · intro hvalid
    unfold exactVerdict at hEV
    rcases hk : knapsack (WeightRestriction.ofData w tw tn).weights t
        ((⌈(WeightRestriction.ofData w tw tn).threshold_weight⌉ - 1 : Int) : Rat)
        (⌊(t.sum : Rat) * (WeightRestriction.ofData w tw tn).tn⌋ + 1) no_jit
        with _ | r
    · rw [hk] at hEV
      exact absurd hEV (by simp)
    rw [hk] at hEV
    simp only [Option.bind_eq_bind, Option.some_bind, pure, Option.some_inj]
      at hEV
    have hk2 : knapsack w t ((⌈tw * (w.sum : Rat)⌉ - 1 : Int) : Rat)
        (⌊(t.sum : Rat) * tn⌋ + 1) no_jit = some r := hk
    rw [knapsack_eq_impl _ _ _ _ _ hne] at hk2
    obtain ⟨S, hS, hwS, hr⟩ := knapsackImpl_le_opt
      w t _ _ r hp hCM hk2
    have hwS2 : weightL S ≤ ⌈tw * (w.sum : Rat)⌉ - 1 := by exact_mod_cast hwS
    have hlt : (profitL S : Rat) < tn * (t.sum : Rat) := hvalid S hS hwS2
    have hbt : decide ((r : Rat)
        < (WeightRestriction.ofData w tw tn).tn * (t.sum : Rat)) = true := by
      rw [decide_eq_true_eq]
      exact lt_of_le_of_lt (by exact_mod_cast hr) hlt
    rw [← hEV, hbt]

/-- Witness for C4 (amended) on `w = [3, 1]`, `tw = 1/2`, `tn = 3/4`,
`t = [1, 0]`. -/
theorem wr_solution_valid_iff_below_word_width_witness :
    true = true ↔ WRValidProp (WeightRestriction.ofData [3, 1] (1/2) (3/4))
      [1, 0] :=
  wr_solution_valid_iff_below_word_width [3, 1] [1, 0] (1/2) (3/4) true true
    (by decide) (by decide) (by decide) (by decide) (by decide) (by decide)

/-- C5: the arbitrary-precision fallback is not \"identical semantics,
still correct\".  On weights `[2^64]`, profits `[1]`, capacity `2^64 - 5`,
cap `5`, `_knapsack_impl` answers `6` though the exact optimum is `0` and
even the total profit is only `1`: past the word width the `MAX_INT_64`
sentinel no longer dominates the capacity, so every dp level looks
feasible. -/
theorem knapsack_impl_overflow_wrong_result :
    knapsackImpl [2 ^ 64] [1] ((2 ^ 64 - 5 : Int) : Rat) 5 = some 6 ∧
    bruteOpt [2 ^ 64] [1] ((2 ^ 64 - 5 : Int) : Rat) = 0 ∧
    ([1] : List Int).sum < 6 :=
  ⟨by decide, by decide, by decide⟩

/-- C6: boundary invariant of the scale search.  Whenever the scale search
of `wr_solve` (any mode) returns `(s_low, s_high)`, every party in the
boundary set gains exactly one ticket from `allocate s_low` to
`allocate s_high`. -/
theorem scale_search_boundary_invariant (w : List Int) (tw tn : Rat) (C : Int)
    (linear no_jit : Bool) (fuel : Nat) (m : Int) (sl sh : Rat)
    (hw : ∀ x ∈ w, 0 ≤ x) (htw : 0 ≤ tw) (hord : tw < tn) (htn1 : tn ≤ 1)
    (hmax : w.max? = some m) (hm : m ≠ 0)
    (hres : wr_scale_search (WeightRestriction.ofData w tw tn) C (1 / (m : Rat))
      linear no_jit fuel = some (sl, sh)) :
    ∀ i ∈ borderSet (WeightRestriction.ofData w tw tn) sl sh,
      (allocate (WeightRestriction.ofData w tw tn) sh
          (WeightRestriction.ofData w tw tn).tw).getD i 0 =
        (allocate (WeightRestriction.ofData w tw tn) sl
          (WeightRestriction.ofData w tw tn).tw).getD i 0 + 1 := by
  have hall := wr_scale_search_border w tw tn C linear no_jit fuel m sl sh
    hw htw hord htn1 hmax hm hres
  intro i hi
  have hi2 : i ∈ (List.range w.length).filter
      (fun i => decide
        ((allocate (WeightRestriction.ofData w tw tn) sl tw).getD i 0 ≠
          (allocate (WeightRestriction.ofData w tw tn) sh tw).getD i 0)) := hi
  rcases List.mem_filter.mp hi2 with ⟨hrange, hneq⟩
  simp only [decide_eq_true_eq] at hneq
  have hi_n : i < w.length := List.mem_range.mp hrange
  have hlo : i < (allocate (WeightRestriction.ofData w tw tn) sl tw).length := by
    rw [allocate_length]
    exact hi_n
  have hhi : i < (allocate (WeightRestriction.ofData w tw tn) sh tw).length := by
    rw [allocate_length]
    exact hi_n
  rcases hga : (allocate (WeightRestriction.ofData w tw tn) sl tw)[i]? with _ | a
  · have := List.getElem?_eq_none_iff.mp hga
    omega
  rcases hgb : (allocate (WeightRestriction.ofData w tw tn) sh tw)[i]? with _ | b
  · have := List.getElem?_eq_none_iff.mp hgb
    omega
  have hzip : ((allocate (WeightRestriction.ofData w tw tn) sl tw).zip
      (allocate (WeightRestriction.ofData w tw tn) sh tw))[i]? = some (a, b) := by
    rw [List.getElem?_zip_eq_some]
    exact ⟨hga, hgb⟩
  have hmem := List.getElem?_mem hzip
  have hstep := hall (a, b) hmem
  have hda : (allocate (WeightRestriction.ofData w tw tn) sl tw).getD i 0 = a := by
    rw [List.getD_eq_getElem?_getD, hga]
    rfl
  have hdb : (allocate (WeightRestriction.ofData w tw tn) sh tw).getD i 0 = b := by
    rw [List.getD_eq_getElem?_getD, hgb]
    rfl
  rw [hda, hdb] at hneq
  show (allocate (WeightRestriction.ofData w tw tn) sh tw).getD i 0 =
    (allocate (WeightRestriction.ofData w tw tn) sl tw).getD i 0 + 1
  rw [hda, hdb]
  simp only at hstep
  omega

/-- Witness for C6 at `w = [3, 1]`, `tw = 1/4`, `tn = 1/2`, `C = 0`,
where the scale search returns `(3/16, 3/8)` and the boundary set is
`[0]`: party 0 gains exactly one ticket. -/
theorem scale_search_boundary_invariant_witness :
    (allocate (WeightRestriction.ofData [3, 1] (1/4) (1/2)) (3/8)
        (WeightRestriction.ofData [3, 1] (1/4) (1/2)).tw).getD 0 0 =
      (allocate (WeightRestriction.ofData [3, 1] (1/4) (1/2)) (3/16)
        (WeightRestriction.ofData [3, 1] (1/4) (1/2)).tw).getD 0 0 + 1 :=
  scale_search_boundary_invariant [3, 1] (1/4) (1/2) 0 false false 32 3
    (3/16) (3/8) (by decide) (by decide) (by decide) (by decide) (by decide)
    (by decide) (by decide) 0 (by decide)

/-- C8: the knapsack oracle is total on well-formed inputs: equal-length
item lists, at least one item, nonnegative capacity and cap.  The final
`max` is over a nonempty list because profit level 0 always fits. -/
theorem knapsack_total_on_wellformed_inputs (w p : List Int) (C U : Int)
    (no_jit : Bool) (hlen : w.length = p.length) (hne : w.length ≠ 0)
    (hC : 0 ≤ C) (hU : 0 ≤ U) :
    (knapsack w p ((C : Int) : Rat) U no_jit).isSome = true := by
  rw [knapsack_eq_impl w p C U no_jit hne]
  exact knapsackImpl_isSome w p ((C : Int) : Rat) U hlen
    (by exact_mod_cast hC) hU

/-- Witness for C8 on `w = [5]`, `p = [2]`, `C = 0`, `U = 0`. -/
theorem knapsack_total_on_wellformed_inputs_witness :
    (knapsack [5] [2] ((0 : Int) : Rat) 0 false).isSome = true :=
  knapsack_total_on_wellformed_inputs [5] [2] 0 0 false (by decide)
    (by decide) (by decide) (by decide)

/-- C9 counterexample: both constructors accept misordered thresholds
without any error: `WeightRestriction` with `tw = 1 ≥ tn = 1/2` and
`WeightQualification` with `tw = 1/2 ≤ tn = 1` are constructed fine. -/
theorem constructors_accept_misordered_thresholds :
    (WeightRestriction.init [1] 1 (1/2)).isSome = true ∧
    (WeightQualification.init [1] (1/2) 1).isSome = true :=
  ⟨rfl, rfl⟩

/-- C9 (amended): the constructors validate nothing and never throw — they
return the records for every input; the threshold-ordering checks live in
the command-line driver, which rejects `tn ≤ tw` for WR and `tw ≤ tn` for
WQ before constructing anything. -/
theorem constructors_total_and_driver_validates (weights : List Int)
    (tw tn : Rat) :
    WeightRestriction.init weights tw tn
        = some (WeightRestriction.ofData weights tw tn) ∧
    WeightQualification.init weights tw tn
        = some (WeightQualification.ofData weights tw tn) ∧
    (mainWrThresholdRejected tw tn = true ↔ tn ≤ tw) ∧
    (mainWqThresholdRejected tw tn = true ↔ tw ≤ tn) :=
  ⟨rfl, rfl, by simp [mainWrThresholdRejected], by simp [mainWqThresholdRejected]⟩

/-- C10: flooring a nonnegative fractional capacity does not change the
oracle: integer subset weights compare to `C` and to `⌊C⌋` alike, and the
jit path truncates the capacity to `⌊C⌋` anyway. -/
theorem knapsack_capacity_floor_invariant (w p : List Int) (C : Rat) (U : Int)
    (no_jit : Bool) (hC : 0 ≤ C) :
    knapsack w p C U no_jit = knapsack w p ((⌊C⌋ : Int) : Rat) U no_jit := by
  unfold knapsack
  split
  · rfl
  split
  · exact knapsackImpl_floor_capacity w p C U
  · rw [ratTrunc_eq_floor C hC, ratTrunc_intCast]

/-- Witness for C10 at `C = 7/2`. -/
theorem knapsack_capacity_floor_invariant_witness :
    knapsack [3] [1] ((7 : Rat) / 2) 1 true
      = knapsack [3] [1] ((⌊(7 : Rat) / 2⌋ : Int) : Rat) 1 true :=
  knapsack_capacity_floor_invariant [3] [1] ((7 : Rat) / 2) 1 true (by decide)

end Swiper
